import Mathlib

/-!
# uWSGI engine of Cutelyst: a shallow embedding of `engineuwsgi.cpp`

The development embeds the request-translation functions of
`src/uwsgiEngine/engineuwsgi.cpp` (`httpCase`, the header loop and body
selection of `processRequest`, `loadApplication`, `finalizeHeaders`) as
executable Lean definitions and proves properties of them.

Bytes are natural numbers (`0 .. 255`); a `QByteArray` is the list of its
bytes.  Calls into uWSGI's C API and into Qt whose outcome is decided outside
this file (loading a plugin, opening a file, emitting a header) are inputs of
the model.
-/

namespace EngineUwsgi

/-! ## Bytes, `QChar` and `QByteArray` -/

/-- A `QByteArray`, as the list of its bytes. -/
abbrev QByteArray := List Nat

/-- The bytes of an ASCII string literal. -/
def bytes (s : String) : QByteArray := s.toList.map Char.toNat

/-- The constructor `QChar(char c)` of Qt: the Latin-1 code point of the
byte, `ucs = uchar(c)`. -/
def QChar.fromChar (c : Nat) : Nat := c % 256

/-- The function `QChar::toUpper()` of Qt on a Latin-1 code point (simple Unicode case
mapping: `a..z`, the micro sign, `à..þ` without the division sign, and `ÿ`). -/
def QChar.toUpper (u : Nat) : Nat :=
  if 97 ≤ u ∧ u ≤ 122 then u - 32
  else if u = 181 then 924
  else if 224 ≤ u ∧ u ≤ 254 ∧ u ≠ 247 then u - 32
  else if u = 255 then 376
  else u

/-- The function `QChar::toLower()` of Qt on a Latin-1 code point (simple Unicode case
mapping: `A..Z` and `À..Þ` without the multiplication sign). -/
def QChar.toLower (u : Nat) : Nat :=
  if 65 ≤ u ∧ u ≤ 90 then u + 32
  else if 192 ≤ u ∧ u ≤ 222 ∧ u ≠ 215 then u + 32
  else u

/-- The bytes `QByteArray::operator+=` appends for a `QChar`: the character is
converted to a one-character `QString`, whose UTF-8 encoding is appended. -/
def QChar.toUtf8 (u : Nat) : QByteArray :=
  if u < 128 then [u]
  else if u < 2048 then [192 + u / 64, 128 + u % 64]
  else [224 + u / 4096, 128 + (u / 64) % 64, 128 + u % 64]

/-- The byte `'_'`. -/
def underscore : Nat := 95

/-- The byte `'-'`. -/
def hyphen : Nat := 45

/-! ## `EngineUwsgi::httpCase` -/

/-- The loop of `httpCase`, entered at index `i` with the flag
`lastWasUnderscore`, the bytes accumulated in `ret` and the bytes of
`headerKey` from index `i` on still to read. -/
def httpCaseLoop : Nat → Bool → QByteArray → List Nat → QByteArray
  | _, _, ret, [] => ret
  | i, lastWasUnderscore, ret, c :: rest =>
    let buf := QChar.fromChar c
    if i == 0 || lastWasUnderscore then
      httpCaseLoop (i + 1) false (ret ++ QChar.toUtf8 (QChar.toUpper buf)) rest
    else if buf == underscore then
      httpCaseLoop (i + 1) true (ret ++ [hyphen]) rest
    else
      httpCaseLoop (i + 1) false (ret ++ QChar.toUtf8 (QChar.toLower buf)) rest

/-- The function `QByteArray EngineUwsgi::httpCase(const QByteArray &headerKey) const`
(lines 160-181). -/
def httpCase (headerKey : QByteArray) : QByteArray :=
  httpCaseLoop 0 false [] headerKey

/-- The bytes the loop of `httpCase` appends for the bytes still to read,
when `cap` says that the next byte is the first one or follows a rewritten
underscore. -/
def httpCaseTail : Bool → List Nat → QByteArray
  | _, [] => []
  | cap, c :: rest =>
    if cap then QChar.toUtf8 (QChar.toUpper (QChar.fromChar c)) ++ httpCaseTail false rest
    else if QChar.fromChar c == underscore then hyphen :: httpCaseTail true rest
    else QChar.toUtf8 (QChar.toLower (QChar.fromChar c)) ++ httpCaseTail false rest

/-! ### The form the specification gives for well-formed keys -/

/-- ASCII upper-casing of one byte. -/
def asciiUpper (b : Nat) : Nat := if 97 ≤ b ∧ b ≤ 122 then b - 32 else b

/-- ASCII lower-casing of one byte. -/
def asciiLower (b : Nat) : Nat := if 65 ≤ b ∧ b ≤ 90 then b + 32 else b

/-- A byte is an ASCII letter. -/
def isAsciiLetter (b : Nat) : Prop := (65 ≤ b ∧ b ≤ 90) ∨ (97 ≤ b ∧ b ≤ 122)

/-- Title case of one run, in the words of the specification: the first
letter uppercase and all the other letters lowercase. -/
def titleCase : List Nat → List Nat
  | [] => []
  | b :: rest => asciiUpper b :: rest.map asciiLower

/-- Hyphenated-Title-Case of a key given by its runs, in the words of the
specification: the runs in title case, joined by `'-'`. -/
def hyphenatedTitleCase (runs : List (List Nat)) : QByteArray :=
  List.intercalate [hyphen] (runs.map titleCase)

/-- What `httpCase` may do to the byte at one position: rewrite `'_'` as
`'-'`, keep the byte, or change the case of an ASCII letter. -/
def PositionRel (a b : Nat) : Prop :=
  (a = underscore ∧ b = hyphen) ∨ b = a ∨
    (65 ≤ a ∧ a ≤ 90 ∧ b = a + 32) ∨ (97 ≤ a ∧ a ≤ 122 ∧ b = a - 32)

/-! ## `Cutelyst::Headers` -/

/-- Modelled from the spec: `Cutelyst::Headers`, declared in
`Cutelyst/headers.h`, which is not part of this file.  The specification
describes it as "a header mapping": a finite map from header key to value,
kept here as the list of its entries. -/
structure Headers where
  entries : List (QByteArray × QByteArray)
deriving DecidableEq, Repr

/-- The entries of a mapping after `field` is bound to `value`. -/
def setEntry (field value : QByteArray) :
    List (QByteArray × QByteArray) → List (QByteArray × QByteArray)
  | [] => [(field, value)]
  | (k, v) :: rest =>
    if k = field then (k, value) :: rest else (k, v) :: setEntry field value rest

/-- The value an entry list binds `field` to. -/
def findEntry (field : QByteArray) : List (QByteArray × QByteArray) → Option QByteArray
  | [] => none
  | (k, v) :: rest => if k = field then some v else findEntry field rest

/-- Modelled from the spec: the default-constructed, empty `Headers`. -/
def Headers.empty : Headers := ⟨[]⟩

/-- Modelled from the spec: `Headers::setHeader(field, value)` binds `field`
to `value` in the header mapping, replacing an earlier binding. -/
def Headers.setHeader (h : Headers) (field value : QByteArray) : Headers :=
  ⟨setEntry field value h.entries⟩

/-- Modelled from the spec: the value the header mapping holds for `field`. -/
def Headers.header (h : Headers) (field : QByteArray) : Option QByteArray :=
  findEntry field h.entries

/-! ## The request structure of uWSGI -/

/-- The fields of uWSGI's `struct wsgi_request` that `processRequest` reads.
A `(pointer, length)` pair is the byte range it denotes; `content_type`,
`encoding` and `post_file` keep the null pointer as `none`; `hvec` is the
`iovec` array, each entry the byte range `iov_base[0 .. iov_len)`. -/
structure wsgi_request where
  host : QByteArray
  path_info : QByteArray
  query_string : QByteArray
  https_len : Nat
  remote_addr : QByteArray
  method : QByteArray
  protocol : QByteArray
  hvec : List QByteArray
  var_cnt : Nat
  content_type : Option QByteArray
  encoding : Option QByteArray
  remote_user : QByteArray
  post_file : Option Nat
deriving DecidableEq, Repr

/-- The C function `uwsgi_startswith(src, what, wlen)` of uWSGI: `0` when the
first `wlen` bytes of `src` are those of `what`, `-1` at the first difference
(and, here, when a buffer ends before `wlen` bytes, which the header loop
excludes by its length test). -/
def uwsgi_startswith : List Nat → List Nat → Nat → Int
  | _, _, 0 => 0
  | s :: src, w :: what, n + 1 => if s ≠ w then -1 else uwsgi_startswith src what n
  | _, _, _ + 1 => -1

/-- What the host process and Qt decide for one call of `processRequest`:
the global `uwsgi.post_buffering`, whether `QFile::open(FILE *, ReadOnly)`
succeeds on a post file, the bytes `uwsgi_get_var` finds for a variable name,
and `QByteArray::toUInt`. -/
structure Host where
  post_buffering : Nat
  fileOpens : Nat → Bool
  uwsgi_get_var : wsgi_request → QByteArray → QByteArray
  toUInt : QByteArray → Nat

/-! ## `EngineUwsgi::processRequest` -/

/-- The body device handed to `setupRequest`: a `QFile` on the post file
(open or not), a `BodyUWSGI`, or a `BodyBufferedUWSGI`. -/
inductive Body where
  | file (post_file : Nat) (isOpen : Bool)
  | bodyUWSGI
  | bodyBufferedUWSGI
deriving DecidableEq, Repr

/-- The calls `processRequest` makes, in order: into the engine
(`newRequest`, `setupRequest`, `handleRequest`), to the logger (`qCDebug`) and
to `QFile::open`. -/
inductive Event where
  | newRequest (scheme host path queryString : QByteArray)
  | debug (message : String)
  | fileOpen (post_file : Nat)
  | setupRequest (method protocol : QByteArray) (headers : Headers) (body : Body)
      (remoteUser remoteAddress : QByteArray) (remotePort : Nat)
  | handleRequest
deriving DecidableEq, Repr

/-- The scheme argument of `newRequest` (line 88):
`req->https_len ? "http" : "https"`. -/
def scheme (req : wsgi_request) : QByteArray :=
  if req.https_len ≠ 0 then bytes "http" else bytes "https"

/-- The header loop (lines 100-111), entered at index `i` with the headers set
so far; `calls` records the `setHeader` calls made so far, in order.  Reading
`hvec` outside the array has no result.  `fuel` bounds the iterations. -/
def headerLoop (req : wsgi_request) :
    Nat → Nat → Headers → List (QByteArray × QByteArray) →
      Option (Headers × List (QByteArray × QByteArray))
  | 0, i, headers, calls => if i < req.var_cnt then none else some (headers, calls)
  | fuel + 1, i, headers, calls =>
    if i < req.var_cnt then
      match req.hvec[i]? with
      | none => none
      | some name =>
        if name.length < 6 then headerLoop req fuel (i + 2) headers calls
        else if uwsgi_startswith name (bytes "HTTP_") 5 = 0 then
          match req.hvec[i + 1]? with
          | none => none
          | some value =>
            let key := name.drop 5
            headerLoop req fuel (i + 2) (headers.setHeader (httpCase key) value)
              (calls ++ [(httpCase key, value)])
        else headerLoop req fuel (i + 2) headers calls
    else some (headers, calls)

/-- The header loop from index `0` on empty headers; `var_cnt` iterations
are enough to reach `var_cnt` in steps of two. -/
def runHeaderLoop (req : wsgi_request) :
    Option (Headers × List (QByteArray × QByteArray)) :=
  headerLoop req req.var_cnt 0 Headers.empty []

/-- Lines 113-116: `Content-Type` is set from the dedicated field unless the
field is null. -/
def setContentType (req : wsgi_request) (headers : Headers) : Headers :=
  match req.content_type with
  | some contentType => headers.setHeader (bytes "Content-Type") contentType
  | none => headers

/-- Lines 118-121: `Content-Encoding` is set from the dedicated field unless
the field is null. -/
def setContentEncoding (req : wsgi_request) (headers : Headers) : Headers :=
  match req.encoding with
  | some contentEncoding => headers.setHeader (bytes "Content-Encoding") contentEncoding
  | none => headers

/-- The headers handed to `setupRequest` (lines 99-121). -/
def requestHeaders (req : wsgi_request) : Option Headers :=
  match runHeaderLoop req with
  | none => none
  | some (headers, _) => some (setContentEncoding req (setContentType req headers))

/-- Body-stream selection (lines 129-146): the calls it makes and the device
it yields. -/
def selectBody (host : Host) (req : wsgi_request) : List Event × Body :=
  match req.post_file with
  | some post_file =>
    if host.fileOpens post_file then
      ([Event.debug "Post file available:", Event.fileOpen post_file],
        Body.file post_file true)
    else
      ([Event.debug "Post file available:", Event.fileOpen post_file,
        Event.debug "Could not open post file:"], Body.file post_file false)
  | none =>
    if host.post_buffering ≠ 0 then
      ([Event.debug "Post buffering size:"], Body.bodyUWSGI)
    else ([], Body.bodyBufferedUWSGI)

/-- The function `void EngineUwsgi::processRequest(wsgi_request *req)` (lines
81-158): the calls it makes, in order. -/
def processRequest (host : Host) (req : wsgi_request) : Option (List Event) :=
  match requestHeaders req with
  | none => none
  | some headers =>
    let remotePort := host.uwsgi_get_var req (bytes "REMOTE_PORT")
    let body := selectBody host req
    some ([Event.newRequest (scheme req) req.host req.path_info req.query_string]
      ++ body.1
      ++ [Event.setupRequest req.method req.protocol headers body.2 req.remote_user
            req.remote_addr (host.toUInt remotePort),
          Event.handleRequest])

/-- The headers after a sequence of `setHeader` calls. -/
def applyCalls (headers : Headers) (calls : List (QByteArray × QByteArray)) : Headers :=
  calls.foldl (fun h c => h.setHeader c.1 c.2) headers

/-- The variable vector is well formed: `var_cnt` is even and the `iovec`
array holds at least `var_cnt` entries. -/
def WellFormed (req : wsgi_request) : Prop :=
  req.var_cnt % 2 = 0 ∧ req.var_cnt ≤ req.hvec.length

instance (req : wsgi_request) : Decidable (WellFormed req) := by
  unfold WellFormed; infer_instance

/-- The (name, value) pairs of a variable vector: name at even index `i`,
value at `i + 1`. -/
def pairs : List QByteArray → List (QByteArray × QByteArray)
  | name :: value :: rest => (name, value) :: pairs rest
  | _ => []

/-- The header a variable contributes according to the specification: none
unless the name has at least 6 bytes and begins with `HTTP_`. -/
def headerOfVar (var : QByteArray × QByteArray) : Option (QByteArray × QByteArray) :=
  if 6 ≤ var.1.length ∧ var.1.take 5 = bytes "HTTP_" then
    some (httpCase (var.1.drop 5), var.2)
  else none

/-! ## `EngineUwsgi::loadApplication` -/

/-- What Qt and the engine decide for one call of `loadApplication`: whether
`QPluginLoader::load()` succeeds, the object `instance()` yields (`none` for
null), `qobject_cast<Application *>` (`none` for null) and the result of
`Engine::initApplication`. -/
structure Loader (Obj App : Type) where
  load : Bool
  loaderInstance : Option Obj
  qobject_cast : Obj → Option App
  initApplication : App → Bool → Bool

/-- The function `bool EngineUwsgi::loadApplication(const QString &path)`
(lines 44-71), as its return value. -/
def loadApplication {Obj App : Type} (m_loader : Loader Obj App) : Bool :=
  if m_loader.load then
    match m_loader.loaderInstance with
    | some inst =>
      match m_loader.qobject_cast inst with
      | some m_app => m_loader.initApplication m_app false
      | none => false
    | none => false
  else false

/-! ## `EngineUwsgi::finalizeHeaders` -/

/-- A `QMap<QByteArray, QByteArray>`: its entries in iteration order, which
is ascending key order (`QByteArray` compares byte-wise). -/
structure QMap where
  entries : List (QByteArray × QByteArray)
  ordered : entries.Pairwise (fun a b => a.1 < b.1)

/-- The part of the response `finalizeHeaders` reads. -/
structure Response where
  statusCode : QByteArray
  headers : QMap

/-- A call into uWSGI's response API together with the value it returned. -/
inductive UwsgiCall where
  | prepare_headers (status : QByteArray) (ret : Int)
  | add_header (key value : QByteArray) (ret : Int)
deriving DecidableEq, Repr

/-- The `while` loop of `finalizeHeaders` (lines 202-212) over the entries
from the iterator on; `W` is the state of the uWSGI request, `calls` records
the calls made so far. -/
def addHeaders {W : Type} (add_header : W → QByteArray → QByteArray → Int × W) :
    W → List (QByteArray × QByteArray) → List UwsgiCall → W × List UwsgiCall
  | w, [], calls => (w, calls)
  | w, (key, value) :: rest, calls =>
    let r := add_header w key value
    if r.1 ≠ 0 then (r.2, calls ++ [UwsgiCall.add_header key value r.1])
    else addHeaders add_header r.2 rest (calls ++ [UwsgiCall.add_header key value r.1])

/-- The function `void EngineUwsgi::finalizeHeaders(Context *ctx)` (lines
189-213): the state of the uWSGI request afterwards and the calls made, in
order. -/
def finalizeHeaders {W : Type} (prepare_headers : W → QByteArray → Int × W)
    (add_header : W → QByteArray → QByteArray → Int × W) (w : W) (res : Response) :
    W × List UwsgiCall :=
  let r := prepare_headers w res.statusCode
  if r.1 ≠ 0 then (r.2, [UwsgiCall.prepare_headers res.statusCode r.1])
  else addHeaders add_header r.2 res.headers.entries
    [UwsgiCall.prepare_headers res.statusCode r.1]

/-- The `add_header` calls of a trace: key, value and returned value. -/
def addCalls : List UwsgiCall → List (QByteArray × QByteArray × Int)
  | [] => []
  | UwsgiCall.add_header key value ret :: rest => (key, value, ret) :: addCalls rest
  | UwsgiCall.prepare_headers _ _ :: rest => addCalls rest

/-- The header (key, value) an `add_header` call was made with. -/
def callHeader (c : QByteArray × QByteArray × Int) : QByteArray × QByteArray := (c.1, c.2.1)

/-- The value an `add_header` call returned. -/
def callRet (c : QByteArray × QByteArray × Int) : Int := c.2.2

/-- A sequence of `add_header` calls walks the entries in order and ends
with the first call that returns non-zero. -/
def StopsAtFailure :
    List (QByteArray × QByteArray) → List (QByteArray × QByteArray × Int) → Prop
  | [], adds => adds = []
  | _ :: _, [] => False
  | e :: rest, c :: adds =>
    callHeader c = e ∧ (if callRet c ≠ 0 then adds = [] else StopsAtFailure rest adds)

/-- The `add_header` call a recorded (key, value, returned value) stands for. -/
def toCall (c : QByteArray × QByteArray × Int) : UwsgiCall :=
  UwsgiCall.add_header c.1 c.2.1 c.2.2

/-- The state of the uWSGI request after `add_header` has been called, from
state `w`, on each of `entries` in turn. -/
def stateAfterCalls {W : Type} (add_header : W → QByteArray → QByteArray → Int × W)
    (w : W) (entries : List (QByteArray × QByteArray)) : W :=
  entries.foldl (fun w e => (add_header w e.1 e.2).2) w

/-! ## Sample inputs -/

/-- A plain-HTTP request carrying two `HTTP_*` variables and two others. -/
def sampleRequest : wsgi_request :=
  { host := bytes "example.org", path_info := bytes "/", query_string := [],
    https_len := 0, remote_addr := bytes "10.0.0.1", method := bytes "POST",
    protocol := bytes "HTTP/1.1",
    hvec := [bytes "HTTP_USER_AGENT", bytes "curl", bytes "HTTP_", bytes "x",
             bytes "REMOTE_PORT", bytes "4711", bytes "HTTP_CONTENT_TYPE", bytes "text/plain"],
    var_cnt := 8, content_type := some (bytes "text/html"), encoding := none,
    remote_user := [], post_file := some 3 }

/-- A host on which no post file can be opened. -/
def sampleHost : Host :=
  { post_buffering := 4096, fileOpens := fun _ => false,
    uwsgi_get_var := fun _ _ => bytes "4711", toUInt := fun b => b.length }

/-- A loader whose plugin loads and yields an `Application` (object `7`,
application `7`) whose initialisation returns `ok`. -/
def sampleLoader (ok : Bool) : Loader Nat Nat :=
  { load := true, loaderInstance := some 7, qobject_cast := fun o => some o,
    initApplication := fun _ _ => ok }

/-- A response with status `200 OK` and three headers. -/
def sampleResponse : Response :=
  { statusCode := bytes "200 OK",
    headers :=
      { entries := [(bytes "Content-Length", bytes "2"), (bytes "Content-Type", bytes "text/html"),
          (bytes "Server", bytes "cutelyst")],
        ordered := by decide } }

/-- An `add_header` that counts its calls in the request state and fails on
the second one. -/
def sampleAddHeader (w : Nat) (_key _value : QByteArray) : Int × Nat :=
  (if w = 1 then -1 else 0, w + 1)

/-- A `prepare_headers` that succeeds. -/
def samplePrepare (w : Nat) (_status : QByteArray) : Int × Nat := (0, w)

/-- An `add_header` that counts its calls in the request state and always
succeeds. -/
def sampleAddHeaderOk (w : Nat) (_key _value : QByteArray) : Int × Nat := (0, w + 1)

/-! ## Properties of `httpCase` -/

theorem httpCaseLoop_eq_tail (rest : List Nat) :
    ∀ (i : Nat) (last : Bool) (ret : QByteArray),
      httpCaseLoop i last ret rest = ret ++ httpCaseTail (i == 0 || last) rest := by
  induction rest with
  | nil => intro i last ret; simp [httpCaseLoop, httpCaseTail]
  | cons c rest ih =>
    intro i last ret
    simp only [httpCaseLoop, httpCaseTail]
    by_cases hcap : (i == 0 || last) = true
    · simp [hcap, ih]
    · by_cases hu : (QChar.fromChar c == underscore) = true
      · simp [hcap, hu, ih]
      · simp [hcap, hu, ih]

theorem httpCase_eq_tail (key : QByteArray) : httpCase key = httpCaseTail true key := by
  simp [httpCase, httpCaseLoop_eq_tail]

theorem toUtf8_toUpper_ascii (c : Nat) (h : c < 128) :
    QChar.toUtf8 (QChar.toUpper (QChar.fromChar c)) = [asciiUpper c] := by
  have hc : QChar.fromChar c = c := by unfold QChar.fromChar; omega
  rw [hc]
  unfold QChar.toUpper asciiUpper QChar.toUtf8
  split_ifs <;> first | rfl | omega

theorem toUtf8_toLower_ascii (c : Nat) (h : c < 128) :
    QChar.toUtf8 (QChar.toLower (QChar.fromChar c)) = [asciiLower c] := by
  have hc : QChar.fromChar c = c := by unfold QChar.fromChar; omega
  rw [hc]
  unfold QChar.toLower asciiLower QChar.toUtf8
  split_ifs <;> first | rfl | omega

theorem httpCaseTail_cons_ascii (cap : Bool) (c : Nat) (rest : List Nat) (h : c < 128) :
    httpCaseTail cap (c :: rest) =
      if cap then asciiUpper c :: httpCaseTail false rest
      else if c = underscore then hyphen :: httpCaseTail true rest
      else asciiLower c :: httpCaseTail false rest := by
  have hc : QChar.fromChar c = c := by unfold QChar.fromChar; omega
  have hU := toUtf8_toUpper_ascii c h
  have hL := toUtf8_toLower_ascii c h
  rw [hc] at hU hL
  simp only [httpCaseTail, hc, hU, hL]
  cases cap <;> simp

theorem intercalate_cons_cons (sep a b : List Nat) (l : List (List Nat)) :
    List.intercalate sep (a :: b :: l) = a ++ (sep ++ List.intercalate sep (b :: l)) := by
  simp [List.intercalate, List.intersperse]

theorem httpCaseTail_lower_run (r rest : List Nat) (hr : ∀ b ∈ r, 65 ≤ b ∧ b ≤ 90) :
    httpCaseTail false (r ++ rest) = r.map asciiLower ++ httpCaseTail false rest := by
  induction r with
  | nil => simp
  | cons c r ih =>
    have hc := hr c (List.mem_cons_self c r)
    have hne : c ≠ underscore := by unfold underscore; omega
    rw [List.cons_append, httpCaseTail_cons_ascii false c _ (by omega)]
    simp only [hne, if_false, Bool.false_eq_true, List.map_cons, List.cons_append]
    rw [ih (fun b hb => hr b (List.mem_cons_of_mem c hb))]

theorem httpCaseTail_title_run (r rest : List Nat) (hne : r ≠ [])
    (hr : ∀ b ∈ r, 65 ≤ b ∧ b ≤ 90) :
    httpCaseTail true (r ++ rest) = titleCase r ++ httpCaseTail false rest := by
  cases r with
  | nil => exact absurd rfl hne
  | cons c r =>
    have hc := hr c (List.mem_cons_self c r)
    rw [List.cons_append, httpCaseTail_cons_ascii true c _ (by omega)]
    simp only [if_true, titleCase, List.cons_append]
    rw [httpCaseTail_lower_run r rest (fun b hb => hr b (List.mem_cons_of_mem c hb))]

theorem httpCaseTail_runs (runs : List (List Nat)) (hne : runs ≠ [])
    (hruns : ∀ r ∈ runs, r ≠ [] ∧ ∀ b ∈ r, 65 ≤ b ∧ b ≤ 90) :
    httpCaseTail true (List.intercalate [underscore] runs) = hyphenatedTitleCase runs := by
  induction runs with
  | nil => exact absurd rfl hne
  | cons r rs ih =>
    have hr := hruns r (List.mem_cons_self r rs)
    cases rs with
    | nil =>
      have h := httpCaseTail_title_run r [] hr.1 hr.2
      simp only [List.append_nil] at h
      simp [hyphenatedTitleCase, List.intercalate, List.intersperse, h, httpCaseTail]
    | cons r2 rs =>
      have ih2 := ih (List.cons_ne_nil r2 rs) (fun q hq => hruns q (List.mem_cons_of_mem r hq))
      rw [intercalate_cons_cons, httpCaseTail_title_run r _ hr.1 hr.2]
      rw [List.singleton_append, httpCaseTail_cons_ascii false underscore _ (by decide)]
      simp only [Bool.false_eq_true, if_false, if_true]
      rw [ih2]
      simp [hyphenatedTitleCase, intercalate_cons_cons]

theorem httpCaseTail_positionwise (l : List Nat) :
    ∀ (cap : Bool), (∀ b ∈ l, b < 128) →
      (httpCaseTail cap l).length = l.length ∧
      ∀ (i a : Nat), l[i]? = some a →
        ∃ b, (httpCaseTail cap l)[i]? = some b ∧ PositionRel a b ∧
          (¬ isAsciiLetter a → a ≠ underscore → b = a) := by
  induction l with
  | nil => intro cap _; simp [httpCaseTail]
  | cons c l ih =>
    intro cap hl
    have hc : c < 128 := hl c (List.mem_cons_self c l)
    have hl2 : ∀ b ∈ l, b < 128 := fun b hb => hl b (List.mem_cons_of_mem c hb)
    rw [httpCaseTail_cons_ascii cap c l hc]
    have key : ∀ (x : Nat) (cap2 : Bool),
        (PositionRel c x ∧ (¬ isAsciiLetter c → c ≠ underscore → x = c)) →
        (x :: httpCaseTail cap2 l).length = (c :: l).length ∧
        ∀ (i a : Nat), (c :: l)[i]? = some a →
          ∃ b, (x :: httpCaseTail cap2 l)[i]? = some b ∧ PositionRel a b ∧
            (¬ isAsciiLetter a → a ≠ underscore → b = a) := by
      intro x cap2 hx
      refine ⟨by simp [(ih cap2 hl2).1], ?_⟩
      intro i a hia
      cases i with
      | zero =>
        simp only [List.getElem?_cons_zero, Option.some.injEq] at hia
        subst hia
        exact ⟨x, by simp, hx⟩
      | succ j =>
        simp only [List.getElem?_cons_succ] at hia ⊢
        exact (ih cap2 hl2).2 j a hia
    by_cases hcap : cap = true
    · simp only [hcap, if_true]
      apply key
      unfold PositionRel isAsciiLetter asciiUpper
      constructor
      · split_ifs with h
        · right; right; right; exact ⟨h.1, h.2, rfl⟩
        · right; left; rfl
      · intro hnl _
        split_ifs with h
        · exact absurd (Or.inr h) hnl
        · rfl
    · simp only [hcap, if_false]
      by_cases hu : c = underscore
      · simp only [hu, if_true]
        have := key hyphen true (by
          rw [hu]; exact ⟨Or.inl ⟨rfl, rfl⟩, fun _ h => absurd rfl h⟩)
        rw [hu] at this
        exact this
      · simp only [hu, if_false]
        apply key
        unfold PositionRel isAsciiLetter asciiLower
        constructor
        · split_ifs with h
          · right; right; left; exact ⟨h.1, h.2, rfl⟩
          · right; left; rfl
        · intro hnl _
          split_ifs with h
          · exact absurd (Or.inl h) hnl
          · rfl

/-- C1: for every header key made of one or more non-empty runs of ASCII
uppercase letters joined by single underscores, `httpCase` returns the
Hyphenated-Title-Case form: the same runs joined by `'-'`, each with its first
letter uppercase and its other letters lowercase. -/
theorem httpCase_hyphenatedTitleCase (runs : List (List Nat)) (hne : runs ≠ [])
    (hruns : ∀ r ∈ runs, r ≠ [] ∧ ∀ b ∈ r, 65 ≤ b ∧ b ≤ 90) :
    httpCase (List.intercalate [underscore] runs) = hyphenatedTitleCase runs := by
  rw [httpCase_eq_tail]
  exact httpCaseTail_runs runs hne hruns

/-- The key `USER_AGENT`, given by its runs, becomes `User-Agent`. -/
theorem httpCase_hyphenatedTitleCase_witness :
    ([bytes "USER", bytes "AGENT"] ≠ [] ∧
      (∀ r ∈ [bytes "USER", bytes "AGENT"], r ≠ [] ∧ ∀ b ∈ r, 65 ≤ b ∧ b ≤ 90)) ∧
    List.intercalate [underscore] [bytes "USER", bytes "AGENT"] = bytes "USER_AGENT" ∧
    hyphenatedTitleCase [bytes "USER", bytes "AGENT"] = bytes "User-Agent" ∧
    httpCase (List.intercalate [underscore] [bytes "USER", bytes "AGENT"]) =
      hyphenatedTitleCase [bytes "USER", bytes "AGENT"] :=
  ⟨⟨by decide, by decide⟩, by decide, by decide,
    httpCase_hyphenatedTitleCase [bytes "USER", bytes "AGENT"] (by decide) (by decide)⟩

/-- C2 (evaluation of the code): an underscore at index `0` and an underscore
right after a rewritten underscore are not rewritten as a hyphen, and the
letter that follows is lower-cased: `_FOO` becomes `_foo`, `A__B` becomes
`A-_b`, so the result of `httpCase` on an ASCII key can contain `'_'`. -/
theorem httpCase_keeps_underscore :
    httpCase (bytes "_FOO") = bytes "_foo" ∧
    httpCase (bytes "A__B") = bytes "A-_b" ∧
    (∀ b ∈ bytes "_FOO", b < 128) ∧ underscore ∈ httpCase (bytes "_FOO") ∧
    (∀ b ∈ bytes "A__B", b < 128) ∧ underscore ∈ httpCase (bytes "A__B") := by
  decide

/-- C10: on a key of ASCII bytes `httpCase` preserves the length and acts
position by position: the byte at index `i` of the result is `'-'` where the
key has `'_'`, or the key's byte, or an ASCII case variant of it; bytes that
are neither letters nor underscores are unchanged, and the empty key gives the
empty result. -/
theorem httpCase_positionwise (key : QByteArray) (hascii : ∀ b ∈ key, b < 128) :
    (httpCase key).length = key.length ∧
    (∀ (i a : Nat), key[i]? = some a →
      ∃ b, (httpCase key)[i]? = some b ∧ PositionRel a b ∧
        (¬ isAsciiLetter a → a ≠ underscore → b = a)) ∧
    httpCase [] = [] := by
  rw [httpCase_eq_tail]
  exact ⟨(httpCaseTail_positionwise key true hascii).1,
    (httpCaseTail_positionwise key true hascii).2, rfl⟩

/-- The key `X_9a` is ASCII, so `httpCase` acts on it position by position. -/
theorem httpCase_positionwise_witness :
    (∀ b ∈ bytes "X_9a", b < 128) ∧
    ((httpCase (bytes "X_9a")).length = (bytes "X_9a").length ∧
    (∀ (i a : Nat), (bytes "X_9a")[i]? = some a →
      ∃ b, (httpCase (bytes "X_9a"))[i]? = some b ∧ PositionRel a b ∧
        (¬ isAsciiLetter a → a ≠ underscore → b = a)) ∧
    httpCase [] = []) :=
  ⟨by decide, httpCase_positionwise (bytes "X_9a") (by decide)⟩

/-! ## The header loop of `processRequest` -/

theorem uwsgi_startswith_http (name : QByteArray) (hlen : 6 ≤ name.length) :
    uwsgi_startswith name (bytes "HTTP_") 5 = 0 ↔ name.take 5 = bytes "HTTP_" := by
  match name, hlen with
  | a :: b :: c :: d :: e :: rest, _ =>
    have hb : bytes "HTTP_" = [72, 84, 84, 80, 95] := by decide
    rw [hb]
    simp only [uwsgi_startswith, List.take_succ_cons, List.take_zero, List.cons.injEq,
      and_true, ne_eq, ite_not]
    constructor
    · intro h
      by_cases h1 : a = 72 <;> by_cases h2 : b = 84 <;> by_cases h3 : c = 84 <;>
        by_cases h4 : d = 80 <;> by_cases h5 : e = 95 <;> simp_all
    · rintro ⟨h1, h2, h3, h4, h5⟩
      simp [h1, h2, h3, h4, h5]

theorem drop_two_of_lt (l : List QByteArray) (i : Nat) (h : i + 1 < l.length) :
    ∃ name value, l[i]? = some name ∧ l[i + 1]? = some value ∧
      l.drop i = name :: value :: l.drop (i + 2) := by
  have h0 : i < l.length := by omega
  refine ⟨l[i], l[i + 1], List.getElem?_eq_getElem h0, List.getElem?_eq_getElem h, ?_⟩
  rw [List.drop_eq_getElem_cons h0, List.drop_eq_getElem_cons h]

theorem headerLoop_spec (req : wsgi_request) (hlen : req.var_cnt ≤ req.hvec.length) :
    ∀ (fuel i : Nat) (headers : Headers) (calls : List (QByteArray × QByteArray)),
      i % 2 = 0 → req.var_cnt % 2 = 0 → i ≤ req.var_cnt → req.var_cnt ≤ i + 2 * fuel →
      headerLoop req fuel i headers calls =
        some (applyCalls headers
            ((pairs ((req.hvec.take req.var_cnt).drop i)).filterMap headerOfVar),
          calls ++ (pairs ((req.hvec.take req.var_cnt).drop i)).filterMap headerOfVar) := by
  intro fuel
  induction fuel with
  | zero =>
    intro i headers calls _ _ hi hfuel
    have hiv : i = req.var_cnt := by omega
    have hd : (req.hvec.take req.var_cnt).drop i = [] := by
      apply List.drop_eq_nil_of_le; rw [List.length_take]; omega
    simp [headerLoop, hiv ▸ hd, hiv, pairs, applyCalls]
  | succ fuel ih =>
    intro i headers calls hi2 hv2 hi hfuel
    by_cases hlt : i < req.var_cnt
    · have hi1 : i + 1 < req.var_cnt := by omega
      have hlt2 : i + 1 < (req.hvec.take req.var_cnt).length := by
        rw [List.length_take]; omega
      obtain ⟨name, value, hn, hvl, hdrop⟩ :=
        drop_two_of_lt (req.hvec.take req.var_cnt) i hlt2
      have hn2 : req.hvec[i]? = some name := by
        rw [List.getElem?_take_of_lt hlt] at hn; exact hn
      have hvl2 : req.hvec[i + 1]? = some value := by
        rw [List.getElem?_take_of_lt hi1] at hvl; exact hvl
      have ihn := fun h c => ih (i + 2) h c (by omega) hv2 (by omega) (by omega)
      rw [hdrop]
      simp only [headerLoop, hlt, if_true, hn2, hvl2, pairs, List.filterMap_cons]
      by_cases hshort : name.length < 6
      · have hnone : headerOfVar (name, value) = none := by
          unfold headerOfVar; simp; intro h; omega
        simp only [hshort, if_true, hnone, ihn]
      · have h6 : 6 ≤ name.length := by omega
        by_cases hst : uwsgi_startswith name (bytes "HTTP_") 5 = 0
        · have hsome : headerOfVar (name, value) = some (httpCase (name.drop 5), value) := by
            unfold headerOfVar
            simp [h6, (uwsgi_startswith_http name h6).1 hst]
          simp only [hshort, if_false, hst, if_true, hsome, ihn]
          simp [applyCalls]
        · have hnone : headerOfVar (name, value) = none := by
            unfold headerOfVar
            have : ¬ name.take 5 = bytes "HTTP_" :=
              fun h => hst ((uwsgi_startswith_http name h6).2 h)
            simp [this]
          simp only [hshort, if_false, hst, hnone, ihn]
    · have hiv : i = req.var_cnt := by omega
      have hd : (req.hvec.take req.var_cnt).drop i = [] := by
        apply List.drop_eq_nil_of_le; rw [List.length_take]; omega
      simp [headerLoop, hiv ▸ hd, hiv, pairs, applyCalls]

theorem runHeaderLoop_spec (req : wsgi_request) (hwf : WellFormed req) :
    runHeaderLoop req =
      some (applyCalls Headers.empty
          ((pairs (req.hvec.take req.var_cnt)).filterMap headerOfVar),
        (pairs (req.hvec.take req.var_cnt)).filterMap headerOfVar) := by
  have h := headerLoop_spec req hwf.2 req.var_cnt 0 Headers.empty [] rfl hwf.1
    (Nat.zero_le _) (by omega)
  simpa [runHeaderLoop] using h

theorem findEntry_setEntry_same (field value : QByteArray)
    (l : List (QByteArray × QByteArray)) :
    findEntry field (setEntry field value l) = some value := by
  induction l with
  | nil => simp [setEntry, findEntry]
  | cons e l ih =>
    obtain ⟨k, v⟩ := e
    by_cases h : k = field
    · simp [setEntry, findEntry, h]
    · simp [setEntry, findEntry, h, ih]

theorem findEntry_setEntry_ne (field other value : QByteArray)
    (l : List (QByteArray × QByteArray)) (hne : other ≠ field) :
    findEntry other (setEntry field value l) = findEntry other l := by
  induction l with
  | nil => simp [setEntry, findEntry, Ne.symm hne]
  | cons e l ih =>
    obtain ⟨k, v⟩ := e
    by_cases h : k = field
    · have h2 : ¬ k = other := fun hk => hne (hk ▸ h)
      simp [setEntry, findEntry, h, Ne.symm hne]
    · by_cases h3 : k = other
      · subst h3
        simp [setEntry, findEntry, h]
      · simp [setEntry, findEntry, h, h3, ih]

theorem header_setHeader_same (h : Headers) (field value : QByteArray) :
    (h.setHeader field value).header field = some value :=
  findEntry_setEntry_same field value h.entries

theorem header_setHeader_ne (h : Headers) (field other value : QByteArray)
    (hne : other ≠ field) :
    (h.setHeader field value).header other = h.header other :=
  findEntry_setEntry_ne field other value h.entries hne

theorem requestHeaders_eq (req : wsgi_request) (hwf : WellFormed req) :
    requestHeaders req =
      some (setContentEncoding req (setContentType req
        (applyCalls Headers.empty
          ((pairs (req.hvec.take req.var_cnt)).filterMap headerOfVar)))) := by
  simp [requestHeaders, runHeaderLoop_spec req hwf]

/-- C5: when the variable vector holds an even number `var_cnt` of entries,
the header loop calls `setHeader` exactly for the (name, value) pairs whose
name has at least 6 bytes and begins with `HTTP_`, in vector order, with key
`httpCase` of the name without its first 5 bytes and the value unchanged;
the headers after the loop are the result of these calls.  A pair named
`HTTP_` contributes nothing and `HTTP_USER_AGENT` yields `User-Agent`. -/
theorem headerLoop_calls (req : wsgi_request) (heven : req.var_cnt % 2 = 0)
    (hcnt : req.hvec.length = req.var_cnt) :
    runHeaderLoop req =
      some (applyCalls Headers.empty ((pairs req.hvec).filterMap headerOfVar),
        (pairs req.hvec).filterMap headerOfVar) ∧
    (∀ var : QByteArray × QByteArray,
      (6 ≤ var.1.length ∧ var.1.take 5 = bytes "HTTP_" →
        headerOfVar var = some (httpCase (var.1.drop 5), var.2)) ∧
      (var.1.length < 6 ∨ var.1.take 5 ≠ bytes "HTTP_" → headerOfVar var = none)) ∧
    (∀ v : QByteArray, headerOfVar (bytes "HTTP_", v) = none ∧
      headerOfVar (bytes "HTTP_USER_AGENT", v) = some (bytes "User-Agent", v)) := by
  refine ⟨?_, ?_, ?_⟩
  · have h := runHeaderLoop_spec req ⟨heven, by omega⟩
    rw [← hcnt, List.take_length] at h
    exact h
  · intro var
    constructor
    · intro h
      simp [headerOfVar, h.1, h.2]
    · intro h
      unfold headerOfVar
      rw [if_neg]
      rintro ⟨h1, h2⟩
      rcases h with h | h
      · omega
      · exact h h2
  · intro v
    constructor
    · have h0 : ¬ 6 ≤ (bytes "HTTP_").length := by decide
      simp only [headerOfVar, h0, false_and, if_false]
    · have h1 : httpCase (List.drop 5 (bytes "HTTP_USER_AGENT")) = bytes "User-Agent" := by
        decide
      have h2 : 6 ≤ (bytes "HTTP_USER_AGENT").length ∧
          (bytes "HTTP_USER_AGENT").take 5 = bytes "HTTP_" := by decide
      simp only [headerOfVar, h2, and_self, if_true, h1]

/-- The sample request has 8 variables; its loop sets `User-Agent` and
`Content-Type` and skips `HTTP_` and `REMOTE_PORT`. -/
theorem headerLoop_calls_witness :
    (sampleRequest.var_cnt % 2 = 0 ∧ sampleRequest.hvec.length = sampleRequest.var_cnt) ∧
    (pairs sampleRequest.hvec).filterMap headerOfVar =
      [(bytes "User-Agent", bytes "curl"), (bytes "Content-Type", bytes "text/plain")] ∧
    runHeaderLoop sampleRequest =
      some (applyCalls Headers.empty ((pairs sampleRequest.hvec).filterMap headerOfVar),
        (pairs sampleRequest.hvec).filterMap headerOfVar) :=
  ⟨by decide, by decide, (headerLoop_calls sampleRequest (by decide) (by decide)).1⟩

/-- C9: in the headers handed to `setupRequest`, `Content-Type` is the
request's `content_type` field whenever that field is non-null and
`Content-Encoding` is its `encoding` field whenever that field is non-null,
whatever the `HTTP_*` loop set before; when the field is null the header is
what the loop left. -/
theorem requestHeaders_dedicated_fields (host : Host) (req : wsgi_request)
    (hwf : WellFormed req) :
    ∃ loopHeaders calls headers,
      runHeaderLoop req = some (loopHeaders, calls) ∧
      requestHeaders req = some headers ∧
      processRequest host req =
        some ([Event.newRequest (scheme req) req.host req.path_info req.query_string]
          ++ (selectBody host req).1
          ++ [Event.setupRequest req.method req.protocol headers (selectBody host req).2
                req.remote_user req.remote_addr
                (host.toUInt (host.uwsgi_get_var req (bytes "REMOTE_PORT"))),
              Event.handleRequest]) ∧
      (∀ contentType, req.content_type = some contentType →
        headers.header (bytes "Content-Type") = some contentType) ∧
      (∀ contentEncoding, req.encoding = some contentEncoding →
        headers.header (bytes "Content-Encoding") = some contentEncoding) ∧
      (req.content_type = none →
        headers.header (bytes "Content-Type") = loopHeaders.header (bytes "Content-Type")) ∧
      (req.encoding = none →
        headers.header (bytes "Content-Encoding") =
          loopHeaders.header (bytes "Content-Encoding")) := by
  have hne : bytes "Content-Type" ≠ bytes "Content-Encoding" := by decide
  refine ⟨_, _, _, runHeaderLoop_spec req hwf, requestHeaders_eq req hwf, ?_, ?_, ?_, ?_, ?_⟩
  · simp [processRequest, requestHeaders_eq req hwf]
  · intro ct hct
    unfold setContentEncoding setContentType
    rw [hct]
    cases henc : req.encoding with
    | none => simp only; exact header_setHeader_same _ _ _
    | some ce =>
      simp only
      rw [header_setHeader_ne _ _ _ _ hne]
      exact header_setHeader_same _ _ _
  · intro ce hce
    unfold setContentEncoding
    rw [hce]
    exact header_setHeader_same _ _ _
  · intro hct
    unfold setContentEncoding setContentType
    rw [hct]
    cases henc : req.encoding with
    | none => rfl
    | some ce => simp only; exact header_setHeader_ne _ _ _ _ hne
  · intro hce
    unfold setContentEncoding setContentType
    rw [hce]
    cases hct : req.content_type with
    | none => rfl
    | some ct => simp only; exact header_setHeader_ne _ _ _ _ (Ne.symm hne)

/-- The sample request carries `HTTP_CONTENT_TYPE: text/plain` and the
dedicated field `text/html`; the header handed on is `text/html`. -/
theorem requestHeaders_dedicated_fields_witness :
    WellFormed sampleRequest ∧
    (∃ loopHeaders calls headers,
      runHeaderLoop sampleRequest = some (loopHeaders, calls) ∧
      requestHeaders sampleRequest = some headers ∧
      loopHeaders.header (bytes "Content-Type") = some (bytes "text/plain") ∧
      headers.header (bytes "Content-Type") = some (bytes "text/html")) :=
  ⟨by decide,
    match requestHeaders_dedicated_fields sampleHost sampleRequest (by decide) with
    | ⟨loopHeaders, calls, headers, h1, h2, _, h4, _, _, _⟩ =>
      ⟨loopHeaders, calls, headers, h1, h2, by
        have h := runHeaderLoop_spec sampleRequest (by decide)
        rw [h] at h1
        simp only [Option.some.injEq, Prod.mk.injEq] at h1
        rw [← h1.1]
        decide, h4 _ rfl⟩⟩

/-! ## Body selection and the calls of `processRequest` -/

/-- C4: when the request has a post file that cannot be opened,
`processRequest` opens it once, logs the failure and goes on: it calls
`setupRequest` and `handleRequest` once each, with the method, protocol,
headers and remote fields it passes when the open succeeds, and with the
unopened file device as the body. -/
theorem processRequest_unopened_post_file (host : Host) (req : wsgi_request) (f : Nat)
    (hwf : WellFormed req) (hfile : req.post_file = some f)
    (hopen : host.fileOpens f = false) :
    ∃ headers remotePort,
      processRequest host req =
        some [Event.newRequest (scheme req) req.host req.path_info req.query_string,
          Event.debug "Post file available:", Event.fileOpen f,
          Event.debug "Could not open post file:",
          Event.setupRequest req.method req.protocol headers (Body.file f false)
            req.remote_user req.remote_addr remotePort,
          Event.handleRequest] ∧
      processRequest { host with fileOpens := fun _ => true } req =
        some [Event.newRequest (scheme req) req.host req.path_info req.query_string,
          Event.debug "Post file available:", Event.fileOpen f,
          Event.setupRequest req.method req.protocol headers (Body.file f true)
            req.remote_user req.remote_addr remotePort,
          Event.handleRequest] := by
  obtain ⟨headers, hh⟩ : ∃ h, requestHeaders req = some h := ⟨_, requestHeaders_eq req hwf⟩
  refine ⟨headers, host.toUInt (host.uwsgi_get_var req (bytes "REMOTE_PORT")), ?_, ?_⟩
  · simp [processRequest, hh, selectBody, hfile, hopen]
  · simp [processRequest, hh, selectBody, hfile]

/-- On the sample host the post file of the sample request cannot be opened;
the request is set up and handled all the same. -/
theorem processRequest_unopened_post_file_witness :
    (WellFormed sampleRequest ∧ sampleRequest.post_file = some 3 ∧
      sampleHost.fileOpens 3 = false) ∧
    ∃ headers remotePort,
      processRequest sampleHost sampleRequest =
        some [Event.newRequest (scheme sampleRequest) sampleRequest.host
            sampleRequest.path_info sampleRequest.query_string,
          Event.debug "Post file available:", Event.fileOpen 3,
          Event.debug "Could not open post file:",
          Event.setupRequest sampleRequest.method sampleRequest.protocol headers
            (Body.file 3 false) sampleRequest.remote_user sampleRequest.remote_addr
            remotePort,
          Event.handleRequest] ∧
      processRequest { sampleHost with fileOpens := fun _ => true } sampleRequest =
        some [Event.newRequest (scheme sampleRequest) sampleRequest.host
            sampleRequest.path_info sampleRequest.query_string,
          Event.debug "Post file available:", Event.fileOpen 3,
          Event.setupRequest sampleRequest.method sampleRequest.protocol headers
            (Body.file 3 true) sampleRequest.remote_user sampleRequest.remote_addr
            remotePort,
          Event.handleRequest] :=
  ⟨by decide,
    processRequest_unopened_post_file sampleHost sampleRequest 3 (by decide) rfl rfl⟩

/-- C7: the body handed to `setupRequest` is chosen by fixed precedence: a
file device on the post file whenever `post_file` is non-null, whatever
`post_buffering` is; otherwise a `BodyUWSGI` when `uwsgi.post_buffering` is
non-zero; otherwise a `BodyBufferedUWSGI`. -/
theorem processRequest_body_precedence (host : Host) (req : wsgi_request)
    (hwf : WellFormed req) :
    ∃ before headers remotePort body,
      processRequest host req =
        some (before ++ [Event.setupRequest req.method req.protocol headers body
          req.remote_user req.remote_addr remotePort, Event.handleRequest]) ∧
      (∀ e ∈ before, ∀ m p h b u a n, e ≠ Event.setupRequest m p h b u a n) ∧
      (∀ f, req.post_file = some f → body = Body.file f (host.fileOpens f)) ∧
      (req.post_file = none → host.post_buffering ≠ 0 → body = Body.bodyUWSGI) ∧
      (req.post_file = none → host.post_buffering = 0 → body = Body.bodyBufferedUWSGI) := by
  obtain ⟨headers, hh⟩ : ∃ h, requestHeaders req = some h := ⟨_, requestHeaders_eq req hwf⟩
  refine ⟨[Event.newRequest (scheme req) req.host req.path_info req.query_string]
      ++ (selectBody host req).1, headers,
    host.toUInt (host.uwsgi_get_var req (bytes "REMOTE_PORT")), (selectBody host req).2,
    ?_, ?_, ?_, ?_, ?_⟩
  · simp [processRequest, hh]
  · intro e he m p h b u a n heq
    subst heq
    unfold selectBody at he
    cases hpf : req.post_file with
    | none =>
      rw [hpf] at he
      by_cases hb : host.post_buffering ≠ 0
      · simp [hb] at he
      · simp [hb] at he
    | some f =>
      rw [hpf] at he
      cases ho : host.fileOpens f
      · simp [ho] at he
      · simp [ho] at he
  · intro f hf
    unfold selectBody
    rw [hf]
    cases ho : host.fileOpens f <;> simp [ho]
  · intro hf hb
    simp [selectBody, hf, hb]
  · intro hf hb
    simp [selectBody, hf, hb]

/-- The sample request has a post file and the sample host buffers posts: the
body is the file device. -/
theorem processRequest_body_precedence_witness :
    WellFormed sampleRequest ∧ sampleHost.post_buffering ≠ 0 ∧
    ∃ before headers remotePort,
      processRequest sampleHost sampleRequest =
        some (before ++ [Event.setupRequest sampleRequest.method sampleRequest.protocol
          headers (Body.file 3 false) sampleRequest.remote_user sampleRequest.remote_addr
          remotePort, Event.handleRequest]) :=
  ⟨by decide, by decide,
    match processRequest_body_precedence sampleHost sampleRequest (by decide) with
    | ⟨before, headers, remotePort, body, h1, _, h3, _, _⟩ =>
      ⟨before, headers, remotePort, by rw [h1, h3 3 rfl]; rfl⟩⟩

/-- C8 (evaluation of the code): the scheme handed to `newRequest` is `http`
when `https_len` is non-zero and `https` when it is zero; the sample request,
which has no `HTTPS` variable, is given the scheme `https`. -/
theorem processRequest_scheme_inverted :
    (∀ req : wsgi_request, (req.https_len ≠ 0 → scheme req = bytes "http") ∧
      (req.https_len = 0 → scheme req = bytes "https")) ∧
    sampleRequest.https_len = 0 ∧
    (processRequest sampleHost sampleRequest).map List.head? =
      some (some (Event.newRequest (bytes "https") sampleRequest.host
        sampleRequest.path_info sampleRequest.query_string)) := by
  refine ⟨fun req => ⟨fun h => by simp [scheme, h], fun h => by simp [scheme, h]⟩, ?_, ?_⟩
  · decide
  · decide

/-! ## `loadApplication` -/

/-- C3: `loadApplication` returns `false` when the plugin fails to load, when
the loader yields no instance, and when the instance is not an `Application`;
in the remaining case it returns the result of `initApplication(app, false)`.
It returns `true` only if all three steps succeeded and `initApplication`
returned `true`. -/
theorem loadApplication_result {Obj App : Type} (m_loader : Loader Obj App) :
    (m_loader.load = false → loadApplication m_loader = false) ∧
    (m_loader.loaderInstance = none → loadApplication m_loader = false) ∧
    (∀ inst, m_loader.loaderInstance = some inst → m_loader.qobject_cast inst = none →
      loadApplication m_loader = false) ∧
    (∀ inst app, m_loader.load = true → m_loader.loaderInstance = some inst →
      m_loader.qobject_cast inst = some app →
      loadApplication m_loader = m_loader.initApplication app false) ∧
    (loadApplication m_loader = true →
      m_loader.load = true ∧ ∃ inst app, m_loader.loaderInstance = some inst ∧
        m_loader.qobject_cast inst = some app ∧
        m_loader.initApplication app false = true) := by
  refine ⟨?_, ?_, ?_, ?_, ?_⟩
  · intro h; simp [loadApplication, h]
  · intro h; simp [loadApplication, h]
  · intro inst h1 h2; simp [loadApplication, h1, h2]
  · intro inst app h0 h1 h2; simp [loadApplication, h0, h1, h2]
  · intro h
    unfold loadApplication at h
    cases h0 : m_loader.load with
    | false => simp [h0] at h
    | true =>
      cases h1 : m_loader.loaderInstance with
      | none => simp [h0, h1] at h
      | some inst =>
        cases h2 : m_loader.qobject_cast inst with
        | none => simp [h0, h1, h2] at h
        | some app =>
          simp [h0, h1, h2] at h
          exact ⟨rfl, inst, app, rfl, h2, h⟩

/-- A loader whose plugin loads and yields an `Application`:
`loadApplication` returns what `initApplication` returns. -/
theorem loadApplication_result_witness :
    loadApplication (sampleLoader false) = false ∧
    loadApplication (sampleLoader true) = true ∧
    ((sampleLoader true).load = true ∧ ∃ inst app,
      (sampleLoader true).loaderInstance = some inst ∧
      (sampleLoader true).qobject_cast inst = some app ∧
      (sampleLoader true).initApplication app false = true) :=
  ⟨by decide, by decide, (loadApplication_result (sampleLoader true)).2.2.2.2 (by decide)⟩

/-! ## `finalizeHeaders` -/

theorem addCalls_append (a b : List UwsgiCall) :
    addCalls (a ++ b) = addCalls a ++ addCalls b := by
  induction a with
  | nil => rfl
  | cons c a ih => cases c <;> simp [addCalls, ih]

theorem addCalls_map_toCall (adds : List (QByteArray × QByteArray × Int)) :
    addCalls (adds.map toCall) = adds := by
  induction adds with
  | nil => rfl
  | cons c adds ih => simp [toCall, addCalls, ih]

theorem addHeaders_trace {W : Type} (add_header : W → QByteArray → QByteArray → Int × W)
    (entries : List (QByteArray × QByteArray)) :
    ∀ (w : W) (calls : List UwsgiCall),
      ∃ adds : List (QByteArray × QByteArray × Int),
        (addHeaders add_header w entries calls).2 = calls ++ adds.map toCall ∧
        (addHeaders add_header w entries calls).1 =
          stateAfterCalls add_header w (entries.take adds.length) ∧
        StopsAtFailure entries adds ∧
        ∀ (j : Nat) (c : QByteArray × QByteArray × Int), adds[j]? = some c →
          ∃ e, entries[j]? = some e ∧
            c = (e.1, e.2,
              (add_header (stateAfterCalls add_header w (entries.take j)) e.1 e.2).1) := by
  induction entries with
  | nil =>
    intro w calls
    exact ⟨[], by simp [addHeaders], by simp [addHeaders, stateAfterCalls], rfl,
      by intro j c h; simp at h⟩
  | cons e rest ih =>
    intro w calls
    obtain ⟨key, value⟩ := e
    by_cases hr : (add_header w key value).1 ≠ 0
    · refine ⟨[(key, value, (add_header w key value).1)], ?_, ?_, ?_, ?_⟩
      · simp [addHeaders, hr, toCall]
      · simp [addHeaders, hr, stateAfterCalls]
      · simp [StopsAtFailure, callHeader, callRet, hr]
      · intro j c hj
        cases j with
        | zero =>
          simp only [List.getElem?_cons_zero, Option.some.injEq] at hj
          subst hj
          exact ⟨(key, value), List.getElem?_cons_zero, by simp [stateAfterCalls]⟩
        | succ j => simp at hj
    · obtain ⟨adds, h1, h2, h3, h4⟩ := ih (add_header w key value).2
        (calls ++ [UwsgiCall.add_header key value (add_header w key value).1])
      refine ⟨(key, value, (add_header w key value).1) :: adds, ?_, ?_, ?_, ?_⟩
      · simp only [addHeaders, hr, if_false]
        rw [h1]
        simp [toCall]
      · simp only [addHeaders, hr, if_false]
        rw [h2]
        simp [stateAfterCalls]
      · simp only [StopsAtFailure, callHeader, callRet, hr, if_false, true_and]
        exact h3
      · intro j c hj
        cases j with
        | zero =>
          simp only [List.getElem?_cons_zero, Option.some.injEq] at hj
          subst hj
          exact ⟨(key, value), List.getElem?_cons_zero, by simp [stateAfterCalls]⟩
        | succ j =>
          simp only [List.getElem?_cons_succ] at hj
          obtain ⟨e, he, hc⟩ := h4 j c hj
          refine ⟨e, by simpa using he, ?_⟩
          rw [hc]
          simp [stateAfterCalls]

theorem stopsAtFailure_props (entries : List (QByteArray × QByteArray)) :
    ∀ adds : List (QByteArray × QByteArray × Int), StopsAtFailure entries adds →
      adds.map callHeader = entries.take adds.length ∧
      (∀ (j : Nat) (c : QByteArray × QByteArray × Int),
        adds[j]? = some c → j + 1 < adds.length → callRet c = 0) ∧
      (adds.length < entries.length → ∃ c, adds.getLast? = some c ∧ callRet c ≠ 0) ∧
      (adds.filter (fun c => callRet c = 0)).map callHeader =
        entries.take (adds.filter (fun c => callRet c = 0)).length := by
  induction entries with
  | nil =>
    intro adds h
    simp only [StopsAtFailure] at h
    subst h
    simp
  | cons e rest ih =>
    intro adds h
    cases adds with
    | nil => simp [StopsAtFailure] at h
    | cons c adds =>
      simp only [StopsAtFailure] at h
      obtain ⟨hc, hrest⟩ := h
      by_cases hr : callRet c ≠ 0
      · rw [if_pos hr] at hrest
        subst hrest
        refine ⟨by simp [hc], ?_, ?_, by simp [List.filter, hr]⟩
        · intro j c2 _ hj
          simp at hj
        · intro _
          exact ⟨c, rfl, hr⟩
      · rw [if_neg hr] at hrest
        obtain ⟨h1, h2, h3, h4⟩ := ih adds hrest
        have hz : callRet c = 0 := not_not.1 hr
        refine ⟨by simp [hc, h1], ?_, ?_, by simp [List.filter, hz, hc, h4]⟩
        · intro j c2 hj hlt
          cases j with
          | zero =>
            simp only [List.getElem?_cons_zero, Option.some.injEq] at hj
            subst hj
            exact not_not.1 hr
          | succ j =>
            simp only [List.getElem?_cons_succ] at hj
            exact h2 j c2 hj (by simpa using hlt)
        · intro hlt
          obtain ⟨c2, hc2, hne⟩ := h3 (by simpa using hlt)
          refine ⟨c2, ?_, hne⟩
          cases adds with
          | nil => simp at hc2
          | cons d adds => rw [List.getLast?_cons_cons]; exact hc2

/-- C6: `finalizeHeaders` emits a prefix of the response's headers in
ascending key order.  If `uwsgi_response_prepare_headers` returns non-zero,
nothing else is called: `uwsgi_response_add_header` is never called.
Otherwise the calls are `prepare_headers` followed by `add_header` calls. The
call at position `j` is made on the header at position `j` in ascending key
order, with that header's key and value, in the request state left by the
calls before it, and the value recorded for it is the value `add_header`
returned there; the request state afterwards is the one left by these calls.
Every call but the last returned zero, and when headers are left over the last
call returned non-zero.  The headers emitted (passed by a call that returned
zero) are again the first headers in key order, and they are all the headers
iff no call fails; when `add_header` returns zero at every header, every
header is passed. -/
theorem finalizeHeaders_calls {W : Type} (prepare_headers : W → QByteArray → Int × W)
    (add_header : W → QByteArray → QByteArray → Int × W) (w : W) (res : Response) :
    ((prepare_headers w res.statusCode).1 ≠ 0 →
      finalizeHeaders prepare_headers add_header w res =
        ((prepare_headers w res.statusCode).2,
          [UwsgiCall.prepare_headers res.statusCode (prepare_headers w res.statusCode).1]) ∧
      addCalls (finalizeHeaders prepare_headers add_header w res).2 = []) ∧
    ((prepare_headers w res.statusCode).1 = 0 →
      (finalizeHeaders prepare_headers add_header w res).2 =
        UwsgiCall.prepare_headers res.statusCode (prepare_headers w res.statusCode).1 ::
          (addCalls (finalizeHeaders prepare_headers add_header w res).2).map toCall ∧
      (finalizeHeaders prepare_headers add_header w res).1 =
        stateAfterCalls add_header (prepare_headers w res.statusCode).2
          (res.headers.entries.take
            (addCalls (finalizeHeaders prepare_headers add_header w res).2).length) ∧
      (∀ (j : Nat) (c : QByteArray × QByteArray × Int),
        (addCalls (finalizeHeaders prepare_headers add_header w res).2)[j]? = some c →
        ∃ e, res.headers.entries[j]? = some e ∧
          c = (e.1, e.2,
            (add_header
              (stateAfterCalls add_header (prepare_headers w res.statusCode).2
                (res.headers.entries.take j)) e.1 e.2).1)) ∧
      ((∀ (j : Nat) (e : QByteArray × QByteArray), res.headers.entries[j]? = some e →
          (add_header
            (stateAfterCalls add_header (prepare_headers w res.statusCode).2
              (res.headers.entries.take j)) e.1 e.2).1 = 0) →
        (addCalls (finalizeHeaders prepare_headers add_header w res).2).map callHeader =
          res.headers.entries) ∧
      (addCalls (finalizeHeaders prepare_headers add_header w res).2).map callHeader =
        res.headers.entries.take
          (addCalls (finalizeHeaders prepare_headers add_header w res).2).length ∧
      ((addCalls (finalizeHeaders prepare_headers add_header w res).2).map
        callHeader).Pairwise (fun a b => a.1 < b.1) ∧
      (∀ (j : Nat) (c : QByteArray × QByteArray × Int),
        (addCalls (finalizeHeaders prepare_headers add_header w res).2)[j]? = some c →
        j + 1 < (addCalls (finalizeHeaders prepare_headers add_header w res).2).length →
        callRet c = 0) ∧
      ((addCalls (finalizeHeaders prepare_headers add_header w res).2).length <
          res.headers.entries.length →
        ∃ c, (addCalls (finalizeHeaders prepare_headers add_header w res).2).getLast? = some c
          ∧ callRet c ≠ 0) ∧
      ((addCalls (finalizeHeaders prepare_headers add_header w res).2).filter
          (fun c => callRet c = 0)).map callHeader =
        res.headers.entries.take
          ((addCalls (finalizeHeaders prepare_headers add_header w res).2).filter
            (fun c => callRet c = 0)).length ∧
      ((((addCalls (finalizeHeaders prepare_headers add_header w res).2).filter
          (fun c => callRet c = 0)).map callHeader = res.headers.entries) ↔
        ∀ c ∈ addCalls (finalizeHeaders prepare_headers add_header w res).2, callRet c = 0)) := by
  constructor
  · intro h
    simp [finalizeHeaders, h, addCalls]
  · intro h
    obtain ⟨adds, htrace, hstate, hstop, hreal⟩ :=
      addHeaders_trace add_header res.headers.entries
        (prepare_headers w res.statusCode).2
        [UwsgiCall.prepare_headers res.statusCode (prepare_headers w res.statusCode).1]
    have hfin : finalizeHeaders prepare_headers add_header w res =
        addHeaders add_header (prepare_headers w res.statusCode).2 res.headers.entries
          [UwsgiCall.prepare_headers res.statusCode (prepare_headers w res.statusCode).1] := by
      simp [finalizeHeaders, h]
    have heq : addCalls (finalizeHeaders prepare_headers add_header w res).2 = adds := by
      rw [hfin, htrace, addCalls_append, addCalls_map_toCall]
      simp [addCalls]
    rw [heq]
    obtain ⟨h1, h2, h3, h4⟩ := stopsAtFailure_props res.headers.entries adds hstop
    have hlen : adds.length ≤ res.headers.entries.length := by
      have := congrArg List.length h1
      rw [List.length_map, List.length_take] at this
      omega
    have hfull : (∀ c ∈ adds, callRet c = 0) → adds.map callHeader = res.headers.entries := by
      intro hall
      rw [h1]
      apply List.take_of_length_le
      by_contra hcon
      obtain ⟨c, hc, hne⟩ := h3 (by omega)
      exact hne (hall c (List.mem_of_getLast?_eq_some hc))
    refine ⟨?_, ?_, hreal, ?_, h1, ?_, h2, h3, h4, ?_⟩
    · rw [hfin, htrace]; rfl
    · rw [hfin, hstate]
    · intro hok
      apply hfull
      intro c hc
      obtain ⟨j, hj⟩ := List.getElem?_of_mem hc
      obtain ⟨e, he, hce⟩ := hreal j c hj
      rw [hce]
      exact hok j e he
    · rw [h1]
      exact List.Pairwise.take res.headers.ordered
    · constructor
      · intro hall
        have hl := congrArg List.length hall
        rw [List.length_map] at hl
        have hle := List.length_filter_le (fun c => decide (callRet c = 0)) adds
        have := List.filter_length_eq_length.1 (le_antisymm hle (by omega))
        intro c hc
        simpa using this c hc
      · intro hall
        have hf : adds.filter (fun c => decide (callRet c = 0)) = adds :=
          List.filter_eq_self.2 (fun c hc => by simpa using hall c hc)
        rw [hf]
        exact hfull hall

/-- On the sample response, an `add_header` that fails on its second call is
called for `Content-Length` and `Content-Type` and never for `Server`; one
that always succeeds is called for all three headers. -/
theorem finalizeHeaders_calls_witness :
    (samplePrepare 0 sampleResponse.statusCode).1 = 0 ∧
    finalizeHeaders samplePrepare sampleAddHeader 0 sampleResponse =
      (2, [UwsgiCall.prepare_headers (bytes "200 OK") 0,
        UwsgiCall.add_header (bytes "Content-Length") (bytes "2") 0,
        UwsgiCall.add_header (bytes "Content-Type") (bytes "text/html") (-1)]) ∧
    finalizeHeaders samplePrepare sampleAddHeaderOk 0 sampleResponse =
      (3, [UwsgiCall.prepare_headers (bytes "200 OK") 0,
        UwsgiCall.add_header (bytes "Content-Length") (bytes "2") 0,
        UwsgiCall.add_header (bytes "Content-Type") (bytes "text/html") 0,
        UwsgiCall.add_header (bytes "Server") (bytes "cutelyst") 0]) ∧
    (finalizeHeaders samplePrepare sampleAddHeader 0 sampleResponse).2 =
      UwsgiCall.prepare_headers sampleResponse.statusCode
          (samplePrepare 0 sampleResponse.statusCode).1 ::
        (addCalls (finalizeHeaders samplePrepare sampleAddHeader 0 sampleResponse).2).map
          toCall ∧
    (addCalls (finalizeHeaders samplePrepare sampleAddHeaderOk 0 sampleResponse).2).map
        callHeader = sampleResponse.headers.entries :=
  ⟨by decide, by decide, by decide,
    ((finalizeHeaders_calls samplePrepare sampleAddHeader 0 sampleResponse).2 (by decide)).1,
    ((finalizeHeaders_calls samplePrepare sampleAddHeaderOk 0 sampleResponse).2
      (by decide)).2.2.2.1 (fun _ _ _ => rfl)⟩

end EngineUwsgi
